import Mathlib

/-!
Verification of the data-normalization, filter-cascade and aggregation core of
the VoIP pricing dashboard (`sale.py`).  Python strings are modelled as
`List Char` (ASCII scope), tables as `List` of record structures, rates as `ℚ`
and durations as `ℤ`.  Every definition is translated from the source file.
-/

namespace Sale

/-- ASCII whitespace as matched by Python's `str.split` / `str.strip` / `re \s`. -/
def isPyWs (c : Char) : Bool :=
  c == ' ' || c == '\t' || c == '\n' || c == '\r' || c == '\x0b' || c == '\x0c'

/-- The ASCII case table used by `str.lower`. -/
def lowerPairs : List (Char × Char) :=
  [('A','a'), ('B','b'), ('C','c'), ('D','d'), ('E','e'), ('F','f'), ('G','g'),
   ('H','h'), ('I','i'), ('J','j'), ('K','k'), ('L','l'), ('M','m'), ('N','n'),
   ('O','o'), ('P','p'), ('Q','q'), ('R','r'), ('S','s'), ('T','t'), ('U','u'),
   ('V','v'), ('W','w'), ('X','x'), ('Y','y'), ('Z','z')]

/-- `str.lower` on one character (ASCII). -/
def pyToLower (c : Char) : Char :=
  ((lowerPairs.find? (fun p => p.1 == c)).map Prod.snd).getD c

/-- `str.lower` on a string. -/
def pyLower (s : List Char) : List Char := s.map pyToLower

/-- `str.strip`: drop whitespace from both ends. -/
def pyStrip (s : List Char) : List Char :=
  ((s.dropWhile isPyWs).reverse.dropWhile isPyWs).reverse

/-- Fuelled worker for `str.replace`: scan left to right, replacing each
non-overlapping occurrence of `old` by `new`. -/
def replaceFuel (old new : List Char) : Nat → List Char → List Char
  | _, [] => []
  | 0, s => s
  | Nat.succ fuel, c :: rest =>
    if old ≠ [] ∧ old.isPrefixOf (c :: rest) then
      new ++ replaceFuel old new fuel ((c :: rest).drop old.length)
    else
      c :: replaceFuel old new fuel rest

/-- Python `str.replace old new` (for non-empty `old`). -/
def listReplace (old new s : List Char) : List Char := replaceFuel old new s.length s

/-- A character kept by `re.sub(r'[^\w\s]', '', ...)`: word char or whitespace. -/
def isPyWordOrWs (c : Char) : Bool := c.isAlphanum || c == '_' || isPyWs c

/-- `re.sub(r'[^\w\s]', '', s)`: delete punctuation. -/
def stripPunct (s : List Char) : List Char := s.filter isPyWordOrWs

/-- Worker for `re.sub(r'\s+', ' ', s)`; the flag records whether the previous
character was whitespace (so a run collapses to a single space). -/
def collapseWsAux : Bool → List Char → List Char
  | _, [] => []
  | prevWs, c :: rest =>
    if isPyWs c then
      if prevWs then collapseWsAux true rest
      else ' ' :: collapseWsAux true rest
    else c :: collapseWsAux false rest

/-- `re.sub(r'\s+', ' ', s)`: each maximal whitespace run becomes one space. -/
def collapseWs (s : List Char) : List Char := collapseWsAux false s

/-- Worker for Python `str.split()` (no separator): split on whitespace runs,
discarding empty tokens; `acc` holds the current token reversed. -/
def pySplitAux (acc : List Char) : List Char → List (List Char)
  | [] => if acc = [] then [] else [acc.reverse]
  | c :: rest =>
    if isPyWs c then
      if acc = [] then pySplitAux [] rest else acc.reverse :: pySplitAux [] rest
    else pySplitAux (c :: acc) rest

/-- Python `str.split()` with no separator. -/
def pySplit (s : List Char) : List (List Char) := pySplitAux [] s

/-- The replacement table of `normalize_supplier_name`, in source order. -/
def replacementList : List (List Char × List Char) :=
  [("communications".data, "comm".data),
   ("telecom".data, "tel".data),
   ("limited".data, "ltd".data),
   ("incorporated".data, "inc".data),
   ("corporation".data, "corp".data),
   ("&".data, "and".data)]

/-- The `for old, new in replacements.items()` loop of `normalize_supplier_name`. -/
def applyReplacements (s : List Char) : List Char :=
  replacementList.foldl (fun acc p => listReplace p.1 p.2 acc) s

/-- `normalize_supplier_name` from `sale.py`: lower-case and strip, apply the six
substring replacements in order, delete punctuation, collapse whitespace, strip. -/
def normalize_supplier_name (name : String) : String :=
  let s := pyStrip (pyLower name.data)
  let s := applyReplacements s
  let s := stripPunct s
  let s := pyStrip (collapseWs s)
  String.mk s

/-- `normalize_destination` from `sale.py`: `None` becomes `"Unknown"`, otherwise
strip and collapse internal whitespace runs. -/
def normalize_destination : Option String → String
  | none => "Unknown"
  | some n => String.mk (collapseWs (pyStrip n.data))

/-- `extract_country` from `sale.py`: replace `-` by a space, split on
whitespace, return the first token, else `"Unknown"`. -/
def extract_country (dest : Option String) : String :=
  match dest with
  | none => "Unknown"
  | some d =>
    let parts := pySplit (d.data.map (fun c => if c = '-' then ' ' else c))
    match parts with
    | [] => "Unknown"
    | p :: _ => String.mk p

/-! ## Data model -/

/-- One raw row of the source spreadsheet.  `name` is the raw destination
string and `supplier` the raw supplier (`Customer`) string; either may be
null/absent. -/
structure VendorRecord where
  name : Option String
  supplier : Option String
  trunk : String
  rate : ℚ
  minDur : ℤ
  incDur : ℤ
deriving DecidableEq

/-- A row after `load_and_process_data`: the raw columns pass through
unchanged and three derived columns are added. -/
structure NormalizedRecord where
  name : Option String
  supplier : Option String
  trunk : String
  rate : ℚ
  minDur : ℤ
  incDur : ℤ
  destination : String
  supplierNormalized : String
  country : String
deriving DecidableEq

/-- Python `str` on a possibly-null string: `None` prints as `"None"`. -/
def pyStr : Option String → String
  | none => "None"
  | some s => s

/-- The per-record part of `load_and_process_data`: derive `Destination`,
`Supplier_Normalized` and `Country`; all raw columns pass through unchanged. -/
def normalizeRecord (v : VendorRecord) : NormalizedRecord :=
  let dest := normalize_destination v.name
  { name := v.name, supplier := v.supplier, trunk := v.trunk, rate := v.rate,
    minDur := v.minDur, incDur := v.incDur,
    destination := dest,
    supplierNormalized := normalize_supplier_name (pyStr v.supplier),
    country := extract_country (some dest) }

/-- One row of the normalized table as seen by the filter engine and the
aggregation views: the `Country`, `Destination`, `Supplier`, `Trunk`,
`Rate (inter)`, `Min Dur` and `Inc Dur` columns. -/
structure NRec where
  country : String
  destination : String
  supplier : String
  trunk : String
  rate : ℚ
  minDur : ℤ
  incDur : ℤ
deriving DecidableEq

/-! ## Filter engine -/

/-- Worker for first-occurrence deduplication. -/
def dedupFirstAux {α : Type} [DecidableEq α] (seen : List α) : List α → List α
  | [] => []
  | a :: l => if a ∈ seen then dedupFirstAux seen l else a :: dedupFirstAux (a :: seen) l

/-- pandas `Series.unique`: the distinct values in first-occurrence order. -/
def uniqueL {α : Type} [DecidableEq α] (l : List α) : List α := dedupFirstAux [] l

/-- `filter_dataframe` from `sale.py`: apply each dimension's `isin` filter in
turn, skipping a dimension whose selection list is empty (falsy). -/
def filter_dataframe (df : List NRec)
    (countries destinations suppliers trunks : List String) : List NRec :=
  let f1 := if countries = [] then df else
    df.filter (fun r => decide (r.country ∈ countries))
  let f2 := if destinations = [] then f1 else
    f1.filter (fun r => decide (r.destination ∈ destinations))
  let f3 := if suppliers = [] then f2 else
    f2.filter (fun r => decide (r.supplier ∈ suppliers))
  if trunks = [] then f3 else
    f3.filter (fun r => decide (r.trunk ∈ trunks))

/-- The spec-side matching predicate of the filter contract: every dimension
whose selection is non-empty must contain the record's value. -/
def matchesSelection (countries destinations suppliers trunks : List String)
    (r : NRec) : Prop :=
  (countries = [] ∨ r.country ∈ countries) ∧
  (destinations = [] ∨ r.destination ∈ destinations) ∧
  (suppliers = [] ∨ r.supplier ∈ suppliers) ∧
  (trunks = [] ∨ r.trunk ∈ trunks)

instance (c d s t : List String) (r : NRec) : Decidable (matchesSelection c d s t r) := by
  unfold matchesSelection; infer_instance

/-- The country multiselect options: `sorted(df["Country"].unique())`
(the distinct countries of the full table). -/
def countryOptions (df : List NRec) : List String := uniqueL (df.map (·.country))

/-- `available_destinations` from `sale.py`. -/
def available_destinations (df : List NRec) (selected_countries : List String) :
    List String :=
  if selected_countries = [] then uniqueL (df.map (·.destination))
  else uniqueL ((df.filter (fun r => decide (r.country ∈ selected_countries))).map
    (·.destination))

/-- `available_suppliers` from `sale.py`: `temp_df` is the table filtered by the
country selection (if any) and then the destination selection (if any). -/
def available_suppliers (df : List NRec)
    (selected_countries selected_destinations : List String) : List String :=
  let temp := df
  let temp := if selected_countries = [] then temp else
    temp.filter (fun r => decide (r.country ∈ selected_countries))
  let temp := if selected_destinations = [] then temp else
    temp.filter (fun r => decide (r.destination ∈ selected_destinations))
  uniqueL (temp.map (·.supplier))

/-- `available_trunks` from `sale.py`: the suppliers' `temp_df` further
filtered by the supplier selection (if any). -/
def available_trunks (df : List NRec)
    (selected_countries selected_destinations selected_suppliers : List String) :
    List String :=
  let temp := df
  let temp := if selected_countries = [] then temp else
    temp.filter (fun r => decide (r.country ∈ selected_countries))
  let temp := if selected_destinations = [] then temp else
    temp.filter (fun r => decide (r.destination ∈ selected_destinations))
  let temp := if selected_suppliers = [] then temp else
    temp.filter (fun r => decide (r.supplier ∈ selected_suppliers))
  uniqueL (temp.map (·.trunk))

/-- The `default=[d for d in saved if d in available]` pruning applied to a
previously saved selection when its candidate set is recomputed. -/
def effectiveSelection (saved avail : List String) : List String :=
  saved.filter (fun d => decide (d ∈ avail))

/-! ## Aggregation views -/

/-- Arithmetic mean of a list of rates (pandas `mean`). -/
def listMean (l : List ℚ) : ℚ := l.sum / l.length

/-- pandas `min` over an integer column (0 on the empty list, never taken on a
non-empty group). -/
def listMinZ : List ℤ → ℤ
  | [] => 0
  | x :: xs => xs.foldl min x

/-- pandas `min` over the rate column. -/
def listMinQ : List ℚ → ℚ
  | [] => 0
  | x :: xs => xs.foldl min x

/-- pandas `max` over the rate column. -/
def listMaxQ : List ℚ → ℚ
  | [] => 0
  | x :: xs => xs.foldl max x

/-- Lexicographic comparison: strictly smaller primary key, or equal primary
keys and `r`-related.  Models one sort key of `sort_values`. -/
def keyLex {α β : Type} [LT β] (k : α → β) (r : α → α → Prop) (a b : α) : Prop :=
  k a < k b ∨ (k a = k b ∧ r a b)

/-- A rate comparison in the caller-chosen direction. -/
def rateLe (asc : Bool) (a b : ℚ) : Prop := if asc then a ≤ b else b ≤ a

/-- One row of the Overview table (raw aggregate values, before display
formatting). -/
structure OvRow where
  country : String
  destination : String
  supplier : String
  trunk : String
  rate : ℚ
  minDur : ℤ
  incDur : ℤ
deriving DecidableEq

/-- The Overview group key `(Country, Destination, Supplier, Trunk)`. -/
def ovKey (r : NRec) : String × String × String × String :=
  (r.country, r.destination, r.supplier, r.trunk)

/-- The `groupby(...).agg(...)` stage of `generate_main_table`: one row per
distinct key with mean rate and minimum durations. -/
def ovGroups (tbl : List NRec) : List OvRow :=
  (uniqueL (tbl.map ovKey)).map (fun k =>
    let grp := tbl.filter (fun r => decide (ovKey r = k))
    { country := k.1, destination := k.2.1, supplier := k.2.2.1, trunk := k.2.2.2,
      rate := listMean (grp.map (·.rate)),
      minDur := listMinZ (grp.map (·.minDur)),
      incDur := listMinZ (grp.map (·.incDur)) })

/-- The `sort_values(["Country", "Destination", "Rate"])` order, on raw rates. -/
def ovLE : OvRow → OvRow → Prop :=
  keyLex (·.country) (keyLex (·.destination) (fun a b => a.rate ≤ b.rate))

instance : DecidableRel ovLE := fun a b => by
  unfold ovLE keyLex; infer_instance

/-- `generate_main_table` up to display formatting: group, aggregate and sort
on the raw mean rates. -/
def overviewSorted (tbl : List NRec) : List OvRow :=
  List.insertionSort ovLE (ovGroups tbl)

/-- One displayed row of the Overview table; `rateStr` is the formatted
`"$%.4f"` rate column. -/
structure OvRowDisplay where
  country : String
  destination : String
  supplier : String
  trunk : String
  rateStr : String
  minDur : ℤ
  incDur : ℤ
deriving DecidableEq

/-- Round to the nearest integer, ties to even (the rounding used by `"%.4f"`). -/
def roundHalfEven (q : ℚ) : ℤ :=
  let f := ⌊q⌋
  if q - f < 1/2 then f
  else if (1 : ℚ)/2 < q - f then f + 1
  else if f % 2 = 0 then f else f + 1

/-- Zero-pad a natural number to four digits. -/
def pad4 (k : ℕ) : String :=
  let s := toString k
  String.mk (List.replicate (4 - s.length) '0') ++ s

/-- The display formatting `f"${x:.4f}"`. -/
def formatDollar (q : ℚ) : String :=
  let n := roundHalfEven (q * 10000)
  let sign := if n < 0 then "-" else ""
  "$" ++ sign ++ toString (n.natAbs / 10000) ++ "." ++ pad4 (n.natAbs % 10000)

/-- `generate_main_table` from `sale.py`: the sorted aggregate with the rate
column replaced by its display string. -/
def generate_main_table (tbl : List NRec) : List OvRowDisplay :=
  (overviewSorted tbl).map (fun a =>
    { country := a.country, destination := a.destination, supplier := a.supplier,
      trunk := a.trunk, rateStr := formatDollar a.rate,
      minDur := a.minDur, incDur := a.incDur })

/-- One row of the Billing Increment table (raw aggregate values). -/
structure BillRow where
  supplier : String
  trunk : String
  minDuration : ℤ
  incDuration : ℤ
  avgRate : ℚ
deriving DecidableEq

/-- The Billing Increment group key `(Supplier, Trunk)`. -/
def billKey (r : NRec) : String × String := (r.supplier, r.trunk)

/-- The group order produced by `groupby(["Supplier", "Trunk"])`. -/
def billLE : BillRow → BillRow → Prop :=
  keyLex (·.supplier) (keyLex (·.trunk) (fun _ _ => True))

instance : DecidableRel billLE := fun a b => by
  unfold billLE keyLex; infer_instance

/-- `generate_billing_table` from `sale.py` up to display formatting: group by
`(Supplier, Trunk)`, aggregate min durations and mean rate. -/
def generate_billing_table (tbl : List NRec) : List BillRow :=
  List.insertionSort billLE ((uniqueL (tbl.map billKey)).map (fun k =>
    let grp := tbl.filter (fun r => decide (billKey r = k))
    { supplier := k.1, trunk := k.2,
      minDuration := listMinZ (grp.map (·.minDur)),
      incDuration := listMinZ (grp.map (·.incDur)),
      avgRate := listMean (grp.map (·.rate)) }))

/-- The `sort_values(["Destination", "Supplier", "Rate (inter)"],
ascending=[True, True, sort_ascending])` order. -/
def arLE (asc : Bool) : NRec → NRec → Prop :=
  keyLex (·.destination) (keyLex (·.supplier) (fun a b => rateLe asc a.rate b.rate))

instance (asc : Bool) : DecidableRel (arLE asc) := fun a b => by
  unfold arLE keyLex rateLe; infer_instance

/-- `generate_all_rates_by_destination` from `sale.py` (grouped-by-supplier
mode): every record, sorted by destination, then supplier, then rate in the
caller-chosen direction. -/
def generate_all_rates_by_destination (tbl : List NRec) (sortAscending : Bool) :
    List NRec :=
  List.insertionSort (arLE sortAscending) tbl

/-- The `sort_values(["Destination", "Rate (inter)"],
ascending=[True, sort_ascending])` order of the destination-only branch. -/
def destLE (asc : Bool) : NRec → NRec → Prop :=
  keyLex (·.destination) (fun a b => rateLe asc a.rate b.rate)

instance (asc : Bool) : DecidableRel (destLE asc) := fun a b => by
  unfold destLE keyLex rateLe; infer_instance

/-- The destination-only branch of the Full Rate Listing: every record, sorted
by destination then rate in the caller-chosen direction. -/
def allRatesDestinationOnly (tbl : List NRec) (sortAscending : Bool) : List NRec :=
  List.insertionSort (destLE sortAscending) tbl

/-- One row of the Supplier Summary (raw aggregate values). -/
structure SupRow where
  supplier : String
  routes : ℕ
  avgRate : ℚ
  minRate : ℚ
  maxRate : ℚ
deriving DecidableEq

/-- The `sort_values("Avg_Rate")` order. -/
def supLE (a b : SupRow) : Prop := a.avgRate ≤ b.avgRate

instance : DecidableRel supLE := fun a b => by
  unfold supLE; infer_instance

/-- `supplier_summary` from `sale.py` up to display formatting: group by
`Supplier`, count the `Destination` column as `Routes`, aggregate mean, min
and max rate, and sort ascending by the raw mean rate. -/
def supplier_summary (tbl : List NRec) : List SupRow :=
  List.insertionSort supLE ((uniqueL (tbl.map (·.supplier))).map (fun s =>
    let grp := tbl.filter (fun r => decide (r.supplier = s))
    { supplier := s,
      routes := (grp.map (·.destination)).length,
      avgRate := listMean (grp.map (·.rate)),
      minRate := listMinQ (grp.map (·.rate)),
      maxRate := listMaxQ (grp.map (·.rate)) }))

/-! ## Page flow -/

/-- The outcome of one render pass: either the soft "no data" warning (the
`filtered_df.empty` guard fires and the script stops before any view), or the
four computed views. -/
inductive PageResult where
  | noData : PageResult
  | views : List OvRowDisplay → List BillRow → List NRec → List SupRow → PageResult
deriving DecidableEq

/-- The page flow after the filter widgets: filter, then either warn-and-stop
on an empty result or compute the aggregation views. -/
def renderPage (df : List NRec)
    (countries destinations suppliers trunks : List String)
    (sortAscending : Bool) : PageResult :=
  let filtered := filter_dataframe df countries destinations suppliers trunks
  if filtered = [] then PageResult.noData
  else PageResult.views (generate_main_table filtered)
    (generate_billing_table filtered)
    (generate_all_rates_by_destination filtered sortAscending)
    (supplier_summary filtered)

/-! ## Spec-side reference definitions and auxiliary predicates -/

/-- The rates of the records of one supplier, in table order. -/
def supplierRates (tbl : List NRec) (sup : String) : List ℚ :=
  (tbl.filter (fun r => decide (r.supplier = sup))).map (·.rate)

/-- The records of one Overview group, in table order. -/
def ovGroup (tbl : List NRec) (kk : String × String × String × String) : List NRec :=
  tbl.filter (fun r => decide (ovKey r = kk))

/-- Spec-side reading of `extract_country` on a string: skip leading
separators (whitespace or hyphen) and return the maximal run of
non-separator characters, or `"Unknown"` when nothing remains. -/
def firstTokenSpec (d : String) : String :=
  let sep : Char → Bool := fun c => isPyWs c || c == '-'
  let rest := d.data.dropWhile sep
  if rest = [] then "Unknown" else String.mk (rest.takeWhile (fun c => !sep c))

/-- `hasSub pat s`: some contiguous run of `s` equals `pat` (substring test). -/
def hasSub (pat : List Char) : List Char → Bool
  | [] => pat.isEmpty
  | c :: rest => pat.isPrefixOf (c :: rest) || hasSub pat rest

/-- A string with no two adjacent whitespace characters in which every
whitespace character is a plain space: the shape produced by
`re.sub(r'\s+', ' ', ...)`. -/
def WsFlat (l : List Char) : Prop :=
  l.Chain' (fun a b => ¬(isPyWs a = true ∧ isPyWs b = true)) ∧
    ∀ c ∈ l, isPyWs c = true → c = ' '

/-! ## Concrete example data -/

/-- One record of the spec's end-to-end Overview example, built through the
normalizer: `Name` is `"UK-London"`, supplier `"ABC Comm"`, trunk `"T1"`. -/
def exRec (q : ℚ) : NRec :=
  { country := extract_country (some (normalize_destination (some "UK-London"))),
    destination := normalize_destination (some "UK-London"),
    supplier := "ABC Comm", trunk := "T1", rate := q, minDur := 6, incDur := 6 }

/-- The spec's two-record example table (rates 0.01 and 0.02). -/
def exTable : List NRec := [exRec 0.01, exRec 0.02]

/-- Small concrete records used to instantiate universally quantified
theorems.  Rates are integral so that every comparison is kernel-decidable. -/
def wRec1 : NRec := ⟨"UK", "UK-London", "S1", "T1", 1, 6, 6⟩

def wRec2 : NRec := ⟨"UK", "UK-Mobile", "S2", "T2", 2, 30, 6⟩

def wRec3 : NRec := ⟨"US", "US-NYC", "S1", "T3", 3, 6, 1⟩

def wRec4 : NRec := ⟨"UK", "UK-London", "S1", "T4", 4, 60, 60⟩

def wTable : List NRec := [wRec1, wRec2, wRec3, wRec4]

/-! ## Shared helper lemmas -/

theorem map_eq_self_of_fix {α : Type} (f : α → α) (l : List α)
    (h : ∀ x ∈ l, f x = x) : l.map f = l := by
  induction l with
  | nil => rfl
  | cons a l ih =>
    simp only [List.map_cons, h a (List.mem_cons_self a l)]
    exact congrArg (a :: ·) (ih (fun x hx => h x (List.mem_cons_of_mem a hx)))

theorem mem_dedupFirstAux {α : Type} [DecidableEq α] (seen l : List α) (x : α) :
    x ∈ dedupFirstAux seen l ↔ x ∈ l ∧ x ∉ seen := by
  induction l generalizing seen with
  | nil => simp [dedupFirstAux]
  | cons a l ih =>
    by_cases ha : a ∈ seen
    · simp only [dedupFirstAux, if_pos ha, ih, List.mem_cons]
      constructor
      · exact fun ⟨h1, h2⟩ => ⟨Or.inr h1, h2⟩
      · rintro ⟨h1 | h1, h2⟩
        · exact absurd (h1 ▸ ha) h2
        · exact ⟨h1, h2⟩
    · simp only [dedupFirstAux, if_neg ha, List.mem_cons, ih]
      constructor
      · rintro (rfl | ⟨h1, h2⟩)
        · exact ⟨Or.inl rfl, ha⟩
        · exact ⟨Or.inr h1, fun hx => h2 (Or.inr hx)⟩
      · rintro ⟨rfl | h1, h2⟩
        · exact Or.inl rfl
        · by_cases hxa : x = a
          · exact Or.inl hxa
          · exact Or.inr ⟨h1, by simp [List.mem_cons, hxa, h2]⟩

theorem mem_uniqueL {α : Type} [DecidableEq α] (l : List α) (x : α) :
    x ∈ uniqueL l ↔ x ∈ l := by
  simp [uniqueL, mem_dedupFirstAux]

theorem nodup_dedupFirstAux {α : Type} [DecidableEq α] (seen l : List α) :
    (dedupFirstAux seen l).Nodup := by
  induction l generalizing seen with
  | nil => exact List.nodup_nil
  | cons a l ih =>
    by_cases ha : a ∈ seen
    · simpa [dedupFirstAux, if_pos ha] using ih seen
    · simp only [dedupFirstAux, if_neg ha]
      refine List.Nodup.cons ?_ (ih (a :: seen))
      intro hmem
      exact ((mem_dedupFirstAux _ _ _).1 hmem).2 (List.mem_cons_self a seen)

theorem nodup_uniqueL {α : Type} [DecidableEq α] (l : List α) :
    (uniqueL l).Nodup := nodup_dedupFirstAux [] l

theorem foldl_min_spec {α : Type} [LinearOrder α] (x : α) (xs : List α) :
    xs.foldl min x ∈ x :: xs ∧ xs.foldl min x ≤ x ∧ ∀ y ∈ xs, xs.foldl min x ≤ y := by
  induction xs generalizing x with
  | nil => exact ⟨List.mem_cons_self x [], le_refl x, by simp⟩
  | cons a xs ih =>
    obtain ⟨hmem, hle, hall⟩ := ih (min x a)
    refine ⟨?_, ?_, ?_⟩
    · rcases List.mem_cons.1 hmem with h | h
      · rcases min_choice x a with hc | hc
        · exact List.mem_cons.2 (Or.inl (h.trans hc))
        · exact List.mem_cons.2 (Or.inr (List.mem_cons.2 (Or.inl (h.trans hc))))
      · exact List.mem_cons.2 (Or.inr (List.mem_cons.2 (Or.inr h)))
    · exact hle.trans (min_le_left x a)
    · intro y hy
      rcases List.mem_cons.1 hy with rfl | hy
      · exact hle.trans (min_le_right x y)
      · exact hall y hy

theorem foldl_max_spec {α : Type} [LinearOrder α] (x : α) (xs : List α) :
    xs.foldl max x ∈ x :: xs ∧ x ≤ xs.foldl max x ∧ ∀ y ∈ xs, y ≤ xs.foldl max x := by
  induction xs generalizing x with
  | nil => exact ⟨List.mem_cons_self x [], le_refl x, by simp⟩
  | cons a xs ih =>
    obtain ⟨hmem, hle, hall⟩ := ih (max x a)
    refine ⟨?_, ?_, ?_⟩
    · rcases List.mem_cons.1 hmem with h | h
      · rcases max_choice x a with hc | hc
        · exact List.mem_cons.2 (Or.inl (h.trans hc))
        · exact List.mem_cons.2 (Or.inr (List.mem_cons.2 (Or.inl (h.trans hc))))
      · exact List.mem_cons.2 (Or.inr (List.mem_cons.2 (Or.inr h)))
    · exact (le_max_left x a).trans hle
    · intro y hy
      rcases List.mem_cons.1 hy with rfl | hy
      · exact (le_max_right x y).trans hle
      · exact hall y hy

theorem listMinZ_spec (l : List ℤ) (h : l ≠ []) :
    listMinZ l ∈ l ∧ ∀ y ∈ l, listMinZ l ≤ y := by
  match l, h with
  | x :: xs, _ =>
    obtain ⟨hmem, hle, hall⟩ := foldl_min_spec x xs
    exact ⟨hmem, by
      intro y hy
      rcases List.mem_cons.1 hy with rfl | hy
      · exact hle
      · exact hall y hy⟩

theorem listMinQ_spec (l : List ℚ) (h : l ≠ []) :
    listMinQ l ∈ l ∧ ∀ y ∈ l, listMinQ l ≤ y := by
  match l, h with
  | x :: xs, _ =>
    obtain ⟨hmem, hle, hall⟩ := foldl_min_spec x xs
    exact ⟨hmem, by
      intro y hy
      rcases List.mem_cons.1 hy with rfl | hy
      · exact hle
      · exact hall y hy⟩

theorem listMaxQ_spec (l : List ℚ) (h : l ≠ []) :
    listMaxQ l ∈ l ∧ ∀ y ∈ l, y ≤ listMaxQ l := by
  match l, h with
  | x :: xs, _ =>
    obtain ⟨hmem, hle, hall⟩ := foldl_max_spec x xs
    exact ⟨hmem, by
      intro y hy
      rcases List.mem_cons.1 hy with rfl | hy
      · exact hle
      · exact hall y hy⟩

theorem condFilter_eq {α : Type} (sel : List String) (k : α → String) (l : List α) :
    (if sel = [] then l else l.filter (fun r => decide (k r ∈ sel)))
      = l.filter (fun r => decide (sel = [] ∨ k r ∈ sel)) := by
  by_cases h : sel = []
  · simp [h]
  · simp [h]

theorem filter_dataframe_eq (df : List NRec) (c d s t : List String) :
    filter_dataframe df c d s t
      = df.filter (fun r => decide (matchesSelection c d s t r)) := by
  simp only [filter_dataframe]
  rw [condFilter_eq c (fun r : NRec => r.country) df,
      condFilter_eq d (fun r : NRec => r.destination) _,
      condFilter_eq s (fun r : NRec => r.supplier) _,
      condFilter_eq t (fun r : NRec => r.trunk) _,
      List.filter_filter, List.filter_filter, List.filter_filter]
  refine List.filter_congr (fun r _ => ?_)
  rw [Bool.eq_iff_iff]
  simp only [Bool.and_eq_true, decide_eq_true_eq, matchesSelection]
  tauto

theorem effectiveSelection_mem (saved avail : List String) (x : String) :
    x ∈ effectiveSelection saved avail ↔ x ∈ saved ∧ x ∈ avail := by
  simp [effectiveSelection, List.mem_filter]

/-! ## Claim theorems -/

/-- C1: the candidate sets follow the fixed cascade Country → Destination →
Supplier → Trunk: country candidates are the distinct countries of the full
table; destination candidates are the distinct destinations among records
matching the country selection (all records when none is selected); supplier
candidates further respect the destination selection; trunk candidates further
respect the supplier selection.  Each candidate set is characterized by the
selections of strictly earlier dimensions only, so later selections never
narrow an earlier dimension's candidates. -/
theorem C1_candidate_cascade (df : List NRec) (selC selD selS : List String)
    (x : String) :
    (x ∈ countryOptions df ↔ ∃ r ∈ df, r.country = x) ∧
    (x ∈ available_destinations df selC ↔
      ∃ r ∈ df, (selC = [] ∨ r.country ∈ selC) ∧ r.destination = x) ∧
    (x ∈ available_suppliers df selC selD ↔
      ∃ r ∈ df, (selC = [] ∨ r.country ∈ selC) ∧ (selD = [] ∨ r.destination ∈ selD) ∧
        r.supplier = x) ∧
    (x ∈ available_trunks df selC selD selS ↔
      ∃ r ∈ df, (selC = [] ∨ r.country ∈ selC) ∧ (selD = [] ∨ r.destination ∈ selD) ∧
        (selS = [] ∨ r.supplier ∈ selS) ∧ r.trunk = x) := by
  refine ⟨?_, ?_, ?_, ?_⟩
  · simp [countryOptions, mem_uniqueL, List.mem_map]
  · by_cases hC : selC = [] <;>
      simp [available_destinations, hC, mem_uniqueL, List.mem_map, List.mem_filter,
        and_assoc]
  · by_cases hC : selC = [] <;> by_cases hD : selD = [] <;>
      simp [available_suppliers, hC, hD, mem_uniqueL, List.mem_map, List.mem_filter,
        and_assoc] <;> aesop
  · by_cases hC : selC = [] <;> by_cases hD : selD = [] <;> by_cases hS : selS = [] <;>
      simp [available_trunks, hC, hD, hS, mem_uniqueL, List.mem_map, List.mem_filter,
        and_assoc] <;> aesop

/-- C2: `filter_dataframe` returns exactly the order-preserving subsequence of
records whose value in each dimension lies in that dimension's selection
whenever the selection is non-empty, an empty selection imposing no
constraint; with all four selections empty it returns the full table. -/
theorem C2_filter_dataframe_spec (df : List NRec) (c d s t : List String) :
    filter_dataframe df c d s t
        = df.filter (fun r => decide (matchesSelection c d s t r)) ∧
    (filter_dataframe df c d s t).Sublist df ∧
    filter_dataframe df [] [] [] [] = df := by
  refine ⟨filter_dataframe_eq df c d s t, ?_, by simp [filter_dataframe]⟩
  rw [filter_dataframe_eq]
  exact List.filter_sublist df

/-- C9: when a candidate set is recomputed, a previously selected value that
is no longer a candidate is silently dropped: the effective selection is the
saved one filtered to the candidate set, hence always a subset of the current
candidates, for each of the destination, supplier and trunk dimensions. -/
theorem C9_stale_selection_dropped (df : List NRec)
    (selC selD selS savedD savedS savedT : List String) (x : String) :
    (x ∈ effectiveSelection savedD (available_destinations df selC) →
        x ∈ available_destinations df selC) ∧
    (x ∉ available_destinations df selC →
        x ∉ effectiveSelection savedD (available_destinations df selC)) ∧
    (x ∈ effectiveSelection savedS (available_suppliers df selC selD) →
        x ∈ available_suppliers df selC selD) ∧
    (x ∉ available_suppliers df selC selD →
        x ∉ effectiveSelection savedS (available_suppliers df selC selD)) ∧
    (x ∈ effectiveSelection savedT (available_trunks df selC selD selS) →
        x ∈ available_trunks df selC selD selS) ∧
    (x ∉ available_trunks df selC selD selS →
        x ∉ effectiveSelection savedT (available_trunks df selC selD selS)) := by
  refine ⟨?_, ?_, ?_, ?_, ?_, ?_⟩ <;>
    simp only [effectiveSelection_mem] <;> tauto

/-- C9 witness: on a concrete table with country filter `["UK"]`, the saved
destination `"US-NYC"` is dropped while `"UK-London"` survives and is a
current candidate. -/
theorem C9_stale_selection_dropped_witness :
    ("UK-London" ∈ effectiveSelection ["UK-London", "US-NYC"]
        (available_destinations wTable ["UK"]) →
      "UK-London" ∈ available_destinations wTable ["UK"]) ∧
    "UK-London" ∈ available_destinations wTable ["UK"] ∧
    "US-NYC" ∉ effectiveSelection ["UK-London", "US-NYC"]
        (available_destinations wTable ["UK"]) :=
  ⟨(C9_stale_selection_dropped wTable ["UK"] [] [] ["UK-London", "US-NYC"] [] []
      "UK-London").1,
   (C9_stale_selection_dropped wTable ["UK"] [] [] ["UK-London", "US-NYC"] [] []
      "UK-London").1 (by decide),
   (C9_stale_selection_dropped wTable ["UK"] [] [] ["UK-London", "US-NYC"] [] []
      "US-NYC").2.1 (by decide)⟩

/-- C10: a selection whose application yields an empty filtered table takes
the soft no-matching-records path: the render pass returns the warning
outcome and no aggregation view is ever produced. -/
theorem C10_empty_result_guard (df : List NRec) (c d s t : List String)
    (asc : Bool) (h : filter_dataframe df c d s t = []) :
    renderPage df c d s t asc = PageResult.noData ∧
    ∀ ov bi ar su, renderPage df c d s t asc ≠ PageResult.views ov bi ar su := by
  constructor
  · simp [renderPage, h]
  · intro ov bi ar su
    simp [renderPage, h]

/-- C10 witness: filtering the concrete table by the absent supplier
`"ABC Comm"` yields an empty table and the warning outcome. -/
theorem C10_empty_result_guard_witness :
    filter_dataframe wTable [] [] ["ABC Comm"] [] = [] ∧
    renderPage wTable [] [] ["ABC Comm"] [] true = PageResult.noData :=
  ⟨by decide,
   (C10_empty_result_guard wTable [] [] ["ABC Comm"] [] true (by decide)).1⟩

/-- C7: the record normalizer is a total function: every raw record, including
those with null `Name` or `Supplier`, normalizes to a defined record; a null
`Name` degrades to destination `"Unknown"`, all raw columns pass through
unchanged, and the derived columns are always defined. -/
theorem C7_normalizer_total (v : VendorRecord) :
    (v.name = none → (normalizeRecord v).destination = "Unknown") ∧
    (normalizeRecord v).name = v.name ∧
    (normalizeRecord v).supplier = v.supplier ∧
    (normalizeRecord v).trunk = v.trunk ∧
    (normalizeRecord v).rate = v.rate ∧
    (normalizeRecord v).minDur = v.minDur ∧
    (normalizeRecord v).incDur = v.incDur ∧
    (normalizeRecord v).destination = normalize_destination v.name ∧
    (normalizeRecord v).supplierNormalized = normalize_supplier_name (pyStr v.supplier) ∧
    normalize_destination none = "Unknown" := by
  refine ⟨fun h => ?_, rfl, rfl, rfl, rfl, rfl, rfl, rfl, rfl, rfl⟩
  simp [normalizeRecord, h, normalize_destination]

/-- C7 witness: a record with null `Name` and `Supplier` normalizes and its
destination is `"Unknown"`. -/
theorem C7_normalizer_total_witness :
    (⟨none, none, "T1", 1, 1, 1⟩ : VendorRecord).name = none ∧
    (normalizeRecord ⟨none, none, "T1", 1, 1, 1⟩).destination = "Unknown" :=
  ⟨rfl, (C7_normalizer_total ⟨none, none, "T1", 1, 1, 1⟩).1 rfl⟩

theorem pySplitAux_head_ne (l acc : List Char) (hacc : acc ≠ []) :
    (pySplitAux acc l).head? =
      some (acc.reverse ++ l.takeWhile (fun c => !isPyWs c)) := by
  induction l generalizing acc with
  | nil => simp [pySplitAux, hacc]
  | cons c rest ih =>
    by_cases hc : isPyWs c
    · simp [pySplitAux, hc, hacc, List.takeWhile_cons]
    · rw [show pySplitAux acc (c :: rest) = pySplitAux (c :: acc) rest from by
        simp [pySplitAux, hc]]
      rw [ih (c :: acc) (by simp)]
      simp [List.takeWhile_cons, hc]

theorem pySplit_head (l : List Char) :
    (pySplitAux [] l).head? =
      if l.dropWhile isPyWs = [] then none
      else some ((l.dropWhile isPyWs).takeWhile (fun c => !isPyWs c)) := by
  induction l with
  | nil => simp [pySplitAux]
  | cons c rest ih =>
    by_cases hc : isPyWs c
    · rw [show pySplitAux [] (c :: rest) = pySplitAux [] rest from by
        simp [pySplitAux, hc]]
      simpa [List.dropWhile_cons, hc] using ih
    · rw [show pySplitAux [] (c :: rest) = pySplitAux [c] rest from by
        simp [pySplitAux, hc]]
      rw [pySplitAux_head_ne rest [c] (by simp)]
      simp [List.dropWhile_cons, hc, List.takeWhile_cons]

/-- C8: `extract_country` replaces each hyphen by a space, splits on
whitespace and returns the first token, or `"Unknown"` when no token remains;
it agrees with the direct spec-side first-token reading, and in particular
maps `"UK-London"` to `"UK"`, `"United States"` to `"United"` and
`"Unknown"` to itself. -/
theorem C8_extract_country (d : String) :
    extract_country (some d) = firstTokenSpec d ∧
    extract_country (some "UK-London") = "UK" ∧
    extract_country (some "United States") = "United" ∧
    extract_country (some "Unknown") = "Unknown" ∧
    extract_country (some "") = "Unknown" := by
  refine ⟨?_, by decide, by decide, by decide, by decide⟩
  have hws : ∀ c : Char,
      isPyWs (if c = '-' then ' ' else c) = (isPyWs c || c == '-') := by
    intro c
    by_cases h : c = '-'
    · subst h; decide
    · rw [if_neg h, show (c == '-') = false from by simp [h], Bool.or_false]
  have hfun : (isPyWs ∘ fun c => if c = '-' then ' ' else c)
      = fun c => isPyWs c || c == '-' := by
    funext c
    exact hws c
  have hdrop : (d.data.map (fun c => if c = '-' then ' ' else c)).dropWhile isPyWs
      = (d.data.dropWhile (fun c => isPyWs c || c == '-')).map
          (fun c => if c = '-' then ' ' else c) := by
    rw [List.dropWhile_map, hfun]
  by_cases hrest : d.data.dropWhile (fun c => isPyWs c || c == '-') = []
  · have hmapped : (d.data.map (fun c => if c = '-' then ' ' else c)).dropWhile isPyWs
        = [] := by rw [hdrop, hrest]; rfl
    have hnone := pySplit_head (d.data.map (fun c => if c = '-' then ' ' else c))
    rw [if_pos hmapped] at hnone
    have hnil : pySplit (d.data.map (fun c => if c = '-' then ' ' else c)) = [] :=
      List.head?_eq_none_iff.1 hnone
    simp [extract_country, firstTokenSpec, hnil, hrest]
  · have hsome := pySplit_head (d.data.map (fun c => if c = '-' then ' ' else c))
    have hmapped : (d.data.map (fun c => if c = '-' then ' ' else c)).dropWhile isPyWs
        ≠ [] := by
      rw [hdrop]
      simpa using hrest
    rw [if_neg hmapped] at hsome
    have htok : ((d.data.map (fun c => if c = '-' then ' ' else c)).dropWhile
          isPyWs).takeWhile (fun c => !isPyWs c)
        = (d.data.dropWhile (fun c => isPyWs c || c == '-')).takeWhile
            (fun c => !(isPyWs c || c == '-')) := by
      rw [hdrop, List.takeWhile_map]
      have harg : ((fun c => !isPyWs c) ∘ fun c => if c = '-' then ' ' else c)
          = fun c => !(isPyWs c || c == '-') := by
        funext c
        simp only [Function.comp_apply]
        rw [hws c]
      rw [harg]
      apply map_eq_self_of_fix
      intro x hx
      have hpx := List.mem_takeWhile_imp hx
      have hxne : x ≠ '-' := by
        intro hh
        rw [hh] at hpx
        simp at hpx
      rw [if_neg hxne]
    have hec : ∀ (parts : List (List Char)),
        pySplitAux [] (d.data.map (fun c => if c = '-' then ' ' else c)) = parts →
        extract_country (some d) = ((parts.head?.map String.mk).getD "Unknown") := by
      intro parts hparts
      simp only [extract_country, pySplit]
      rw [hparts]
      rcases parts with _ | ⟨p, ps⟩ <;> rfl
    rcases hp : pySplitAux [] (d.data.map (fun c => if c = '-' then ' ' else c)) with
      _ | ⟨p, ps⟩
    · rw [hp] at hsome
      exact absurd hsome (by simp)
    · rw [hp] at hsome
      simp only [List.head?_cons, Option.some.injEq] at hsome
      rw [hec (p :: ps) hp]
      simp only [List.head?_cons, Option.map_some', Option.getD_some, firstTokenSpec,
        if_neg hrest]
      rw [hsome, htok]

theorem countP_eq_one_of_nodup {α : Type} [DecidableEq α] (l : List α) (a : α)
    (hn : l.Nodup) (ha : a ∈ l) : l.countP (fun x => decide (x = a)) = 1 := by
  induction l with
  | nil => cases ha
  | cons b l ih =>
    rcases List.mem_cons.1 ha with rfl | ha'
    · rw [List.countP_cons_of_pos _ _ (by simp)]
      have hz : l.countP (fun x => decide (x = a)) = 0 := by
        rw [List.countP_eq_zero]
        intro x hx
        simp only [decide_eq_true_eq]
        intro hxa
        exact (List.nodup_cons.1 hn).1 (hxa ▸ hx)
      rw [hz]
    · rw [List.countP_cons_of_neg _ _ (by
        simp only [decide_eq_true_eq]
        intro hba
        exact (List.nodup_cons.1 hn).1 (hba ▸ ha'))]
      exact ih (List.nodup_cons.1 hn).2 ha'

theorem supLE_total : ∀ a b : SupRow, supLE a b ∨ supLE b a :=
  fun a b => le_total a.avgRate b.avgRate

theorem supLE_trans : ∀ a b c : SupRow, supLE a b → supLE b c → supLE a c :=
  fun _ _ _ h1 h2 => le_trans h1 h2

theorem supplier_summary_sorted (tbl : List NRec) :
    List.Sorted supLE (supplier_summary tbl) :=
  @List.sorted_insertionSort SupRow supLE _ ⟨supLE_total⟩ ⟨supLE_trans⟩ _

theorem supplier_summary_rows (tbl : List NRec) (row : SupRow)
    (h : row ∈ supplier_summary tbl) :
    row.supplier ∈ tbl.map (·.supplier) ∧
    row.routes = tbl.countP (fun r => decide (r.supplier = row.supplier)) ∧
    row.avgRate = (supplierRates tbl row.supplier).sum
      / (supplierRates tbl row.supplier).length ∧
    row.minRate = listMinQ (supplierRates tbl row.supplier) ∧
    row.maxRate = listMaxQ (supplierRates tbl row.supplier) := by
  rw [supplier_summary, List.mem_insertionSort] at h
  rcases List.mem_map.1 h with ⟨sup, hsup, rfl⟩
  refine ⟨(mem_uniqueL _ _).1 hsup, ?_, rfl, rfl, rfl⟩
  show ((tbl.filter (fun r => decide (r.supplier = sup))).map (·.destination)).length
    = tbl.countP (fun r => decide (r.supplier = sup))
  rw [List.length_map, List.countP_eq_length_filter]

theorem supplier_summary_count (tbl : List NRec) (sup : String)
    (h : sup ∈ tbl.map (·.supplier)) :
    (supplier_summary tbl).countP (fun row => decide (row.supplier = sup)) = 1 := by
  rw [supplier_summary, (List.perm_insertionSort supLE _).countP_eq, List.countP_map]
  exact countP_eq_one_of_nodup _ sup (nodup_uniqueL _) ((mem_uniqueL _ _).2 h)

/-- C4: the Supplier Summary groups the filtered table by supplier only, for
any combination of filter selections: each supplier appears exactly once, its
`Routes` value is the number of filtered records with that supplier, its
aggregates are the arithmetic mean, the minimum and the maximum of that
supplier's raw rates, and the rows are sorted ascending by mean rate. -/
theorem C4_supplier_summary (df : List NRec) (c d s t : List String) :
    (∀ row ∈ supplier_summary (filter_dataframe df c d s t),
      (row.routes = (filter_dataframe df c d s t).countP
          (fun r => decide (r.supplier = row.supplier)) ∧
       row.avgRate = (supplierRates (filter_dataframe df c d s t) row.supplier).sum
          / (supplierRates (filter_dataframe df c d s t) row.supplier).length) ∧
      (supplierRates (filter_dataframe df c d s t) row.supplier ≠ [] →
        (row.minRate ∈ supplierRates (filter_dataframe df c d s t) row.supplier ∧
          ∀ y ∈ supplierRates (filter_dataframe df c d s t) row.supplier,
            row.minRate ≤ y) ∧
        (row.maxRate ∈ supplierRates (filter_dataframe df c d s t) row.supplier ∧
          ∀ y ∈ supplierRates (filter_dataframe df c d s t) row.supplier,
            y ≤ row.maxRate))) ∧
    (∀ sup ∈ (filter_dataframe df c d s t).map (·.supplier),
      (supplier_summary (filter_dataframe df c d s t)).countP
          (fun row => decide (row.supplier = sup)) = 1) ∧
    List.Sorted supLE (supplier_summary (filter_dataframe df c d s t)) := by
  refine ⟨?_, ?_, supplier_summary_sorted _⟩
  · intro row hrow
    obtain ⟨_, hroutes, havg, hmin, hmax⟩ :=
      supplier_summary_rows (filter_dataframe df c d s t) row hrow
    refine ⟨⟨hroutes, havg⟩, fun hne => ?_⟩
    refine ⟨hmin ▸ listMinQ_spec _ hne, hmax ▸ listMaxQ_spec _ hne⟩
  · intro sup hsup
    exact supplier_summary_count _ sup hsup

/-- C4 witness: on the concrete table with no filters applied, supplier
`"S1"` occurs and has exactly one summary row. -/
theorem C4_supplier_summary_witness :
    ("S1" ∈ (filter_dataframe wTable [] [] [] []).map (·.supplier)) ∧
    (supplier_summary (filter_dataframe wTable [] [] [] [])).countP
        (fun row => decide (row.supplier = "S1")) = 1 :=
  ⟨by decide, (C4_supplier_summary wTable [] [] [] []).2.1 "S1" (by decide)⟩

theorem rateLe_total (asc : Bool) : ∀ a b : ℚ, rateLe asc a b ∨ rateLe asc b a := by
  intro a b
  cases asc
  · simpa [rateLe] using le_total b a
  · simpa [rateLe] using le_total a b

theorem rateLe_trans (asc : Bool) :
    ∀ a b c : ℚ, rateLe asc a b → rateLe asc b c → rateLe asc a c := by
  intro a b c h1 h2
  cases asc
  · simp [rateLe] at h1 h2 ⊢
    exact le_trans h2 h1
  · simp [rateLe] at h1 h2 ⊢
    exact le_trans h1 h2

theorem keyLex_trans_of {α β : Type} [LinearOrder β] (k : α → β) (r : α → α → Prop)
    (hr : ∀ a b c, r a b → r b c → r a c) :
    ∀ a b c, keyLex k r a b → keyLex k r b c → keyLex k r a c := by
  intro a b c hab hbc
  rcases hab with h1 | ⟨h1, hr1⟩ <;> rcases hbc with h2 | ⟨h2, hr2⟩
  · exact Or.inl (h1.trans h2)
  · exact Or.inl (h2 ▸ h1)
  · exact Or.inl (h1 ▸ h2)
  · exact Or.inr ⟨h1.trans h2, hr a b c hr1 hr2⟩

theorem keyLex_total_of {α β : Type} [LinearOrder β] (k : α → β) (r : α → α → Prop)
    (hr : ∀ a b, r a b ∨ r b a) :
    ∀ a b, keyLex k r a b ∨ keyLex k r b a := by
  intro a b
  rcases lt_trichotomy (k a) (k b) with h | h | h
  · exact Or.inl (Or.inl h)
  · rcases hr a b with h1 | h1
    · exact Or.inl (Or.inr ⟨h, h1⟩)
    · exact Or.inr (Or.inr ⟨h.symm, h1⟩)
  · exact Or.inr (Or.inl h)

theorem keyLex_sandwich {α β : Type} [LinearOrder β] (k : α → β) (r : α → α → Prop)
    (a b c : α) (h1 : keyLex k r a b) (h2 : keyLex k r b c) (h : k a = k c) :
    k b = k a ∧ r a b ∧ r b c := by
  rcases h1 with h1 | ⟨h1, hr1⟩ <;> rcases h2 with h2 | ⟨h2, hr2⟩
  · exact absurd (h1.trans h2) (by rw [h]; exact lt_irrefl _)
  · exact absurd (h2 ▸ h1) (by rw [h]; exact lt_irrefl _)
  · exact absurd (h1 ▸ h2) (by rw [h]; exact lt_irrefl _)
  · exact ⟨h1.symm, hr1, hr2⟩

theorem arLE_trans (asc : Bool) :
    ∀ a b c : NRec, arLE asc a b → arLE asc b c → arLE asc a c :=
  keyLex_trans_of _ _ (keyLex_trans_of _ _
    (fun a b c h1 h2 => rateLe_trans asc a.rate b.rate c.rate h1 h2))

theorem arLE_total (asc : Bool) : ∀ a b : NRec, arLE asc a b ∨ arLE asc b a :=
  keyLex_total_of _ _ (keyLex_total_of _ _ (fun a b => rateLe_total asc a.rate b.rate))

theorem destLE_trans (asc : Bool) :
    ∀ a b c : NRec, destLE asc a b → destLE asc b c → destLE asc a c :=
  keyLex_trans_of _ _ (fun a b c h1 h2 => rateLe_trans asc a.rate b.rate c.rate h1 h2)

theorem destLE_total (asc : Bool) : ∀ a b : NRec, destLE asc a b ∨ destLE asc b a :=
  keyLex_total_of _ _ (fun a b => rateLe_total asc a.rate b.rate)

/-- C5: the grouped-by-supplier Full Rate Listing carries one row per filtered
record and is sorted by destination ascending, then supplier ascending, then
rate in the caller-chosen direction, so rows sharing one
(destination, supplier) pair are contiguous for either rate direction; the
destination-only mode carries one row per record sorted by destination
ascending then rate in the caller-chosen direction. -/
theorem C5_all_rates_listing (tbl : List NRec) (asc : Bool) :
    (generate_all_rates_by_destination tbl asc).Perm tbl ∧
    List.Sorted (arLE asc) (generate_all_rates_by_destination tbl asc) ∧
    (∀ i j k : Fin (generate_all_rates_by_destination tbl asc).length,
      i ≤ j → j ≤ k →
      ((generate_all_rates_by_destination tbl asc).get i).destination
        = ((generate_all_rates_by_destination tbl asc).get k).destination →
      ((generate_all_rates_by_destination tbl asc).get i).supplier
        = ((generate_all_rates_by_destination tbl asc).get k).supplier →
      ((generate_all_rates_by_destination tbl asc).get j).destination
          = ((generate_all_rates_by_destination tbl asc).get i).destination ∧
        ((generate_all_rates_by_destination tbl asc).get j).supplier
          = ((generate_all_rates_by_destination tbl asc).get i).supplier) ∧
    (allRatesDestinationOnly tbl asc).Perm tbl ∧
    List.Sorted (destLE asc) (allRatesDestinationOnly tbl asc) := by
  refine ⟨List.perm_insertionSort _ _, ?_, ?_, List.perm_insertionSort _ _, ?_⟩
  · exact @List.sorted_insertionSort NRec (arLE asc) _ ⟨arLE_total asc⟩
      ⟨arLE_trans asc⟩ _
  · intro i j k hij hjk hdik hsik
    have hsorted : List.Sorted (arLE asc) (generate_all_rates_by_destination tbl asc) :=
      @List.sorted_insertionSort NRec (arLE asc) _ ⟨arLE_total asc⟩ ⟨arLE_trans asc⟩ _
    rcases eq_or_lt_of_le hij with heq | hlt
    · rw [← heq]
      exact ⟨rfl, rfl⟩
    · rcases eq_or_lt_of_le hjk with heq2 | hlt2
      · rw [heq2]
        exact ⟨hdik.symm, hsik.symm⟩
      · have h1 := List.Sorted.rel_get_of_lt hsorted hlt
        have h2 := List.Sorted.rel_get_of_lt hsorted hlt2
        obtain ⟨hd, hin1, hin2⟩ := keyLex_sandwich _ _ _ _ _ h1 h2 hdik
        obtain ⟨hsup, _, _⟩ := keyLex_sandwich _ _ _ _ _ hin1 hin2 hsik
        exact ⟨hd, hsup⟩
  · exact @List.sorted_insertionSort NRec (destLE asc) _ ⟨destLE_total asc⟩
      ⟨destLE_trans asc⟩ _

/-- C5 witness: the contiguity property instantiated on a one-record table
(the sorted listing of a singleton involves no comparison, so every index
hypothesis is decidable). -/
theorem C5_all_rates_listing_witness :
    ((generate_all_rates_by_destination [wRec1] true).get ⟨0, by decide⟩).destination
      = ((generate_all_rates_by_destination [wRec1] true).get ⟨0, by decide⟩).destination ∧
    ((generate_all_rates_by_destination [wRec1] true).get ⟨0, by decide⟩).supplier
      = ((generate_all_rates_by_destination [wRec1] true).get ⟨0, by decide⟩).supplier :=
  (C5_all_rates_listing [wRec1] true).2.2.1 ⟨0, by decide⟩ ⟨0, by decide⟩ ⟨0, by decide⟩
    (by decide) (by decide) (by decide) (by decide)

theorem ovLE_trans : ∀ a b c : OvRow, ovLE a b → ovLE b c → ovLE a c :=
  keyLex_trans_of _ _ (keyLex_trans_of _ _ (fun _ _ _ h1 h2 => le_trans h1 h2))

theorem ovLE_total : ∀ a b : OvRow, ovLE a b ∨ ovLE b a :=
  keyLex_total_of _ _ (keyLex_total_of _ _ (fun a b => le_total a.rate b.rate))

theorem overview_sorted (tbl : List NRec) : List.Sorted ovLE (overviewSorted tbl) :=
  @List.sorted_insertionSort OvRow ovLE _ ⟨ovLE_total⟩ ⟨ovLE_trans⟩ _

theorem overview_rows (tbl : List NRec) (row : OvRow)
    (h : row ∈ overviewSorted tbl) :
    (row.country, row.destination, row.supplier, row.trunk) ∈ tbl.map ovKey ∧
    row.rate = ((ovGroup tbl (row.country, row.destination, row.supplier,
        row.trunk)).map (·.rate)).sum
      / ((ovGroup tbl (row.country, row.destination, row.supplier,
        row.trunk)).map (·.rate)).length ∧
    row.minDur = listMinZ ((ovGroup tbl (row.country, row.destination, row.supplier,
      row.trunk)).map (·.minDur)) ∧
    row.incDur = listMinZ ((ovGroup tbl (row.country, row.destination, row.supplier,
      row.trunk)).map (·.incDur)) := by
  rw [overviewSorted, List.mem_insertionSort] at h
  rcases List.mem_map.1 h with ⟨k, hk, rfl⟩
  exact ⟨(mem_uniqueL _ _).1 hk, rfl, rfl, rfl⟩

theorem overview_group_ne_nil (tbl : List NRec)
    (k : String × String × String × String) (h : k ∈ tbl.map ovKey) :
    ovGroup tbl k ≠ [] := by
  rcases List.mem_map.1 h with ⟨r, hr, rfl⟩
  have : r ∈ ovGroup tbl (ovKey r) := by
    rw [ovGroup, List.mem_filter]
    exact ⟨hr, by simp⟩
  exact List.ne_nil_of_mem this

theorem overview_count (tbl : List NRec) (k : String × String × String × String)
    (h : k ∈ tbl.map ovKey) :
    (overviewSorted tbl).countP (fun row =>
      decide ((row.country, row.destination, row.supplier, row.trunk) = k)) = 1 := by
  rw [overviewSorted, (List.perm_insertionSort ovLE _).countP_eq, ovGroups,
    List.countP_map]
  exact countP_eq_one_of_nodup _ k (nodup_uniqueL _) ((mem_uniqueL _ _).2 h)

/-- C3: the Overview groups the filtered table by (Country, Destination,
Supplier, Trunk), one output row per occurring key, aggregating the
arithmetic mean of the raw rates and the minimum Min Dur and Inc Dur per
group; the rows are sorted ascending by (Country, Destination, Rate) on the
raw mean rates and the 4-decimal currency formatting is applied only
afterwards; on the spec's two-record example it yields the single row
(UK, UK-London, ABC Comm, T1, 0.015, 6, 6). -/
theorem C3_overview_table (tbl : List NRec) :
    (∀ row ∈ overviewSorted tbl,
      (row.country, row.destination, row.supplier, row.trunk) ∈ tbl.map ovKey ∧
      row.rate = ((ovGroup tbl (row.country, row.destination, row.supplier,
          row.trunk)).map (·.rate)).sum
        / ((ovGroup tbl (row.country, row.destination, row.supplier,
          row.trunk)).map (·.rate)).length ∧
      (row.minDur ∈ (ovGroup tbl (row.country, row.destination, row.supplier,
          row.trunk)).map (·.minDur) ∧
        ∀ y ∈ (ovGroup tbl (row.country, row.destination, row.supplier,
          row.trunk)).map (·.minDur), row.minDur ≤ y) ∧
      (row.incDur ∈ (ovGroup tbl (row.country, row.destination, row.supplier,
          row.trunk)).map (·.incDur) ∧
        ∀ y ∈ (ovGroup tbl (row.country, row.destination, row.supplier,
          row.trunk)).map (·.incDur), row.incDur ≤ y)) ∧
    (∀ k ∈ tbl.map ovKey,
      (overviewSorted tbl).countP (fun row =>
        decide ((row.country, row.destination, row.supplier, row.trunk) = k)) = 1) ∧
    List.Sorted ovLE (overviewSorted tbl) ∧
    generate_main_table tbl = (overviewSorted tbl).map (fun a =>
      { country := a.country, destination := a.destination, supplier := a.supplier,
        trunk := a.trunk, rateStr := formatDollar a.rate,
        minDur := a.minDur, incDur := a.incDur }) ∧
    overviewSorted exTable
      = [⟨"UK", "UK-London", "ABC Comm", "T1", 0.015, 6, 6⟩] := by
  refine ⟨?_, overview_count tbl, overview_sorted tbl, rfl, ?_⟩
  · intro row hrow
    obtain ⟨hkey, hrate, hmin, hinc⟩ := overview_rows tbl row hrow
    have hne := overview_group_ne_nil tbl _ hkey
    have hne1 : (ovGroup tbl (row.country, row.destination, row.supplier,
        row.trunk)).map (·.minDur) ≠ [] := by
      intro hc
      exact hne (List.map_eq_nil_iff.1 hc)
    have hne2 : (ovGroup tbl (row.country, row.destination, row.supplier,
        row.trunk)).map (·.incDur) ≠ [] := by
      intro hc
      exact hne (List.map_eq_nil_iff.1 hc)
    exact ⟨hkey, hrate, hmin ▸ listMinZ_spec _ hne1, hinc ▸ listMinZ_spec _ hne2⟩
  · have hkeys : uniqueL (exTable.map ovKey)
        = [(("UK" : String), ("UK-London" : String), ("ABC Comm" : String),
            ("T1" : String))] := by decide
    rw [overviewSorted, ovGroups, hkeys]
    simp only [List.map_cons, List.map_nil]
    rw [show ∀ (r : OvRow), List.insertionSort ovLE [r] = [r] from fun _ => rfl]
    have hrates : (exTable.filter (fun r => decide (ovKey r
        = (("UK" : String), ("UK-London" : String), ("ABC Comm" : String),
           ("T1" : String))))).map (·.rate) = [(0.01 : ℚ), 0.02] := rfl
    simp only [List.cons.injEq, and_true, OvRow.mk.injEq, hrates]
    refine ⟨trivial, trivial, trivial, trivial, ?_, by decide, by decide⟩
    rw [listMean]
    norm_num [List.sum_cons, List.sum_nil]

/-- C3 witness: the key of the first concrete record occurs in the table and
has exactly one Overview row. -/
theorem C3_overview_table_witness :
    ((("UK" : String), ("UK-London" : String), ("S1" : String), ("T1" : String))
      ∈ wTable.map ovKey) ∧
    (overviewSorted wTable).countP (fun row =>
      decide ((row.country, row.destination, row.supplier, row.trunk)
        = (("UK" : String), ("UK-London" : String), ("S1" : String),
           ("T1" : String)))) = 1 :=
  ⟨by decide, (C3_overview_table wTable).2.1 _ (by decide)⟩

theorem lowerPairs_snd_notin :
    ∀ p ∈ lowerPairs, lowerPairs.find? (fun q => q.1 == p.2) = none := by decide

theorem pyToLower_idem (c : Char) : pyToLower (pyToLower c) = pyToLower c := by
  cases hf : lowerPairs.find? (fun p => p.1 == c) with
  | none =>
    have h1 : pyToLower c = c := by rw [pyToLower, hf]; rfl
    rw [h1, h1]
  | some p =>
    have hmem := List.mem_of_find?_eq_some hf
    have h1 : pyToLower c = p.2 := by rw [pyToLower, hf]; rfl
    rw [h1, pyToLower, lowerPairs_snd_notin p hmem]
    rfl

theorem replacement_values_lower :
    ∀ p ∈ replacementList, ∀ c ∈ p.2, pyToLower c = c := by decide

theorem mem_replaceFuel (old new : List Char) (fuel : Nat) (s : List Char) (c : Char)
    (h : c ∈ replaceFuel old new fuel s) : c ∈ s ∨ c ∈ new := by
  induction fuel generalizing s with
  | zero =>
    cases s with
    | nil => simp [replaceFuel] at h
    | cons a rest => exact Or.inl h
  | succ fuel ih =>
    cases s with
    | nil => simp [replaceFuel] at h
    | cons a rest =>
      simp only [replaceFuel] at h
      by_cases hc : old ≠ [] ∧ old.isPrefixOf (a :: rest) = true
      · rw [if_pos hc] at h
        rcases List.mem_append.1 h with h1 | h1
        · exact Or.inr h1
        · rcases ih _ h1 with h2 | h2
          · exact Or.inl (List.mem_of_mem_drop h2)
          · exact Or.inr h2
      · rw [if_neg hc] at h
        rcases List.mem_cons.1 h with rfl | h1
        · exact Or.inl (List.mem_cons_self _ _)
        · rcases ih _ h1 with h2 | h2
          · exact Or.inl (List.mem_cons_of_mem _ h2)
          · exact Or.inr h2

theorem mem_listReplace (old new s : List Char) (c : Char)
    (h : c ∈ listReplace old new s) : c ∈ s ∨ c ∈ new :=
  mem_replaceFuel old new s.length s c h

theorem mem_applyReplacements (s : List Char) (c : Char)
    (h : c ∈ applyReplacements s) :
    c ∈ s ∨ ∃ p ∈ replacementList, c ∈ p.2 := by
  have haux : ∀ (L : List (List Char × List Char)) (s' : List Char),
      (∀ p ∈ L, p ∈ replacementList) →
      c ∈ L.foldl (fun acc p => listReplace p.1 p.2 acc) s' →
      c ∈ s' ∨ ∃ p ∈ replacementList, c ∈ p.2 := by
    intro L
    induction L with
    | nil => exact fun s' _ h => Or.inl h
    | cons p rest ih =>
      intro s' hsub h
      rw [List.foldl_cons] at h
      rcases ih (listReplace p.1 p.2 s')
          (fun q hq => hsub q (List.mem_cons_of_mem _ hq)) h with h1 | h1
      · rcases mem_listReplace p.1 p.2 s' c h1 with h2 | h2
        · exact Or.inl h2
        · exact Or.inr ⟨p, hsub p (List.mem_cons_self _ _), h2⟩
      · exact Or.inr h1
  have h' : c ∈ replacementList.foldl (fun acc p => listReplace p.1 p.2 acc) s := h
  exact haux replacementList s (fun p hp => hp) h'

theorem replaceFuel_of_not_hasSub (old new : List Char) (fuel : Nat) (s : List Char)
    (h : hasSub old s = false) : replaceFuel old new fuel s = s := by
  induction fuel generalizing s with
  | zero => cases s <;> simp [replaceFuel]
  | succ fuel ih =>
    cases s with
    | nil => simp [replaceFuel]
    | cons a rest =>
      simp only [hasSub, Bool.or_eq_false_iff] at h
      obtain ⟨h1, h2⟩ := h
      simp only [replaceFuel]
      have hcond : ¬(old ≠ [] ∧ old.isPrefixOf (a :: rest) = true) := by
        rintro ⟨-, hpre⟩
        rw [h1] at hpre
        cases hpre
      rw [if_neg hcond, ih rest h2]

theorem listReplace_of_not_hasSub (old new s : List Char)
    (h : hasSub old s = false) : listReplace old new s = s :=
  replaceFuel_of_not_hasSub old new s.length s h

theorem applyReplacements_of_not_hasSub (s : List Char)
    (h : ∀ p ∈ replacementList, hasSub p.1 s = false) :
    applyReplacements s = s := by
  rw [applyReplacements]
  have haux : ∀ (L : List (List Char × List Char)), (∀ p ∈ L, hasSub p.1 s = false) →
      L.foldl (fun acc p => listReplace p.1 p.2 acc) s = s := by
    intro L
    induction L with
    | nil => exact fun _ => rfl
    | cons p rest ih =>
      intro hL
      rw [List.foldl_cons,
        listReplace_of_not_hasSub _ _ _ (hL p (List.mem_cons_self _ _))]
      exact ih (fun q hq => hL q (List.mem_cons_of_mem _ hq))
  exact haux replacementList (fun p hp => h p hp)

theorem mem_collapseWsAux (b : Bool) (s : List Char) (c : Char)
    (h : c ∈ collapseWsAux b s) : c ∈ s ∨ c = ' ' := by
  induction s generalizing b with
  | nil => simp [collapseWsAux] at h
  | cons a rest ih =>
    simp only [collapseWsAux] at h
    split_ifs at h with h1 h2
    · rcases ih true h with h3 | h3
      · exact Or.inl (List.mem_cons_of_mem _ h3)
      · exact Or.inr h3
    · rcases List.mem_cons.1 h with rfl | h3
      · exact Or.inr rfl
      · rcases ih true h3 with h4 | h4
        · exact Or.inl (List.mem_cons_of_mem _ h4)
        · exact Or.inr h4
    · rcases List.mem_cons.1 h with rfl | h3
      · exact Or.inl (List.mem_cons_self _ _)
      · rcases ih false h3 with h4 | h4
        · exact Or.inl (List.mem_cons_of_mem _ h4)
        · exact Or.inr h4

theorem collapseWsAux_space (b : Bool) (s : List Char) (c : Char)
    (h : c ∈ collapseWsAux b s) (hws : isPyWs c = true) : c = ' ' := by
  induction s generalizing b with
  | nil => simp [collapseWsAux] at h
  | cons a rest ih =>
    simp only [collapseWsAux] at h
    split_ifs at h with h1 h2
    · exact ih true h
    · rcases List.mem_cons.1 h with rfl | h3
      · rfl
      · exact ih true h3
    · rcases List.mem_cons.1 h with rfl | h3
      · exact absurd hws h1
      · exact ih false h3

theorem collapseWsAux_true_head (s : List Char) :
    ∀ c, (collapseWsAux true s).head? = some c → isPyWs c = false := by
  induction s with
  | nil => intro c h; simp [collapseWsAux] at h
  | cons a rest ih =>
    intro c h
    simp only [collapseWsAux] at h
    by_cases ha : isPyWs a = true
    · rw [if_pos ha, if_true] at h
      exact ih c h
    · rw [if_neg ha] at h
      simp only [List.head?_cons, Option.some.injEq] at h
      rw [← h]
      exact Bool.not_eq_true _ |>.mp ha

theorem collapseWsAux_chain (b : Bool) (s : List Char) :
    (collapseWsAux b s).Chain' (fun x y => ¬(isPyWs x = true ∧ isPyWs y = true)) := by
  induction s generalizing b with
  | nil => simp [collapseWsAux]
  | cons a rest ih =>
    simp only [collapseWsAux]
    by_cases ha : isPyWs a = true
    · rw [if_pos ha]
      by_cases hb : b = true
      · rw [if_pos hb]
        exact ih true
      · rw [if_neg hb, List.chain'_cons']
        refine ⟨?_, ih true⟩
        intro y hy
        rintro ⟨-, hy2⟩
        rw [collapseWsAux_true_head rest y hy] at hy2
        cases hy2
    · rw [if_neg ha, List.chain'_cons']
      refine ⟨?_, ih false⟩
      intro y _
      rintro ⟨h1, -⟩
      exact ha h1

theorem collapseWsAux_true_eq_false (s : List Char)
    (h : ∀ c, s.head? = some c → isPyWs c = false) :
    collapseWsAux true s = collapseWsAux false s := by
  cases s with
  | nil => rfl
  | cons a rest =>
    have ha := h a rfl
    simp [collapseWsAux, ha]

theorem collapseWs_eq_self : ∀ (s : List Char), WsFlat s → collapseWs s = s := by
  intro s
  induction s with
  | nil => exact fun _ => rfl
  | cons a rest ih =>
    rintro ⟨hchain, hsp⟩
    obtain ⟨hhead, htail⟩ := List.chain'_cons'.1 hchain
    by_cases ha : isPyWs a = true
    · have ha' : a = ' ' := hsp a (List.mem_cons_self _ _) ha
      have hresthead : ∀ c, rest.head? = some c → isPyWs c = false := by
        intro c hc
        by_contra hcc
        rw [Bool.not_eq_false] at hcc
        exact hhead c hc ⟨ha, hcc⟩
      show collapseWsAux false (a :: rest) = a :: rest
      simp only [collapseWsAux, if_pos ha]
      rw [if_neg (by simp), collapseWsAux_true_eq_false rest hresthead]
      have hrest : collapseWs rest = rest :=
        ih ⟨htail, fun c hc hw => hsp c (List.mem_cons_of_mem _ hc) hw⟩
      rw [show collapseWsAux false rest = collapseWs rest from rfl, hrest, ha']
    · show collapseWsAux false (a :: rest) = a :: rest
      simp only [collapseWsAux, if_neg ha]
      have hrest : collapseWs rest = rest :=
        ih ⟨htail, fun c hc hw => hsp c (List.mem_cons_of_mem _ hc) hw⟩
      rw [show collapseWsAux false rest = collapseWs rest from rfl, hrest]

theorem pyStrip_eq_rdrop (l : List Char) :
    pyStrip l = List.rdropWhile isPyWs (l.dropWhile isPyWs) := rfl

theorem dropWhile_rdropWhile_self (l : List Char) :
    (List.rdropWhile isPyWs (l.dropWhile isPyWs)).dropWhile isPyWs
      = List.rdropWhile isPyWs (l.dropWhile isPyWs) := by
  rw [List.dropWhile_eq_self_iff]
  intro hl
  have hpre :=  List.rdropWhile_prefix isPyWs (l.dropWhile isPyWs)
  have hlen : 0 < (l.dropWhile isPyWs).length :=
    lt_of_lt_of_le hl hpre.length_le
  have hget := hpre.getElem hl
  simp only [List.get_eq_getElem]
  rw [hget]
  have hnot := List.dropWhile_get_zero_not isPyWs l hlen
  simpa [List.get_eq_getElem] using hnot

theorem pyStrip_idem (l : List Char) : pyStrip (pyStrip l) = pyStrip l := by
  rw [pyStrip_eq_rdrop l, pyStrip_eq_rdrop, dropWhile_rdropWhile_self,
    List.rdropWhile_idempotent]

theorem pyStrip_within (l : List Char) : pyStrip l <:+: l := by
  rw [pyStrip_eq_rdrop]
  have h1 :=  List.rdropWhile_prefix isPyWs (l.dropWhile isPyWs)
  have h2 := List.dropWhile_suffix (l := l) isPyWs
  exact h1.isInfix.trans h2.isInfix

theorem WsFlat_pyStrip (l : List Char) (h : WsFlat l) : WsFlat (pyStrip l) := by
  obtain ⟨h1, h2⟩ := h
  refine ⟨ List.Chain'.infix h1 (pyStrip_within l), ?_⟩
  intro c hc hw
  exact h2 c ((pyStrip_within l).sublist.subset hc) hw

theorem normalize_supplier_name_eq (x : String) :
    normalize_supplier_name x
      = String.mk (pyStrip (collapseWs (stripPunct (applyReplacements
          (pyStrip (pyLower x.data)))))) := rfl

theorem normalize_supplier_name_data (x : String) :
    (normalize_supplier_name x).data
      = pyStrip (collapseWs (stripPunct (applyReplacements
          (pyStrip (pyLower x.data))))) := by
  rw [normalize_supplier_name_eq]

set_option maxHeartbeats 1000000 in
theorem pipeline_chars (W : List Char) (c : Char)
    (h : c ∈ pyStrip (collapseWs (stripPunct (applyReplacements W)))) :
    c ∈ W ∨ (∃ p ∈ replacementList, c ∈ p.2) ∨ c = ' ' := by
  have h1 := (pyStrip_within _).sublist.subset h
  rcases mem_collapseWsAux false _ c h1 with h2 | h2
  · rw [stripPunct] at h2
    rcases mem_applyReplacements _ c (List.mem_of_mem_filter h2) with h4 | h4
    · exact Or.inl h4
    · exact Or.inr (Or.inl h4)
  · exact Or.inr (Or.inr h2)

set_option maxHeartbeats 1000000 in
theorem normalize_chars_lower (x : String) :
    ∀ c ∈ (normalize_supplier_name x).data, pyToLower c = c := by
  intro c h
  rw [normalize_supplier_name_data] at h
  rcases pipeline_chars _ c h with h1 | h1 | h1
  · have h5 := (pyStrip_within _).sublist.subset h1
    rcases List.mem_map.1 h5 with ⟨c', _, rfl⟩
    exact pyToLower_idem c'
  · obtain ⟨p, hp, hcp⟩ := h1
    exact replacement_values_lower p hp c hcp
  · rw [h1]
    decide

set_option maxHeartbeats 1000000 in
theorem pipeline_chars_punct (W : List Char) (c : Char)
    (h : c ∈ pyStrip (collapseWs (stripPunct (applyReplacements W)))) :
    isPyWordOrWs c = true := by
  have h1 := (pyStrip_within _).sublist.subset h
  rcases mem_collapseWsAux false _ c h1 with h2 | h2
  · rw [stripPunct] at h2
    exact List.of_mem_filter h2
  · rw [h2]
    decide

set_option maxHeartbeats 1000000 in
theorem normalize_chars_punct (x : String) :
    ∀ c ∈ (normalize_supplier_name x).data, isPyWordOrWs c = true := by
  intro c h
  rw [normalize_supplier_name_data] at h
  exact pipeline_chars_punct _ c h

/-- C6 counterexample: `normalize_supplier_name` is not idempotent on every
string: on `"tele.com"` the punctuation strip creates the fresh occurrence
`"telecom"` of a replacement key, which a second application rewrites to
`"tel"`. -/
theorem C6_normalize_not_idempotent :
    ¬ (normalize_supplier_name (normalize_supplier_name "tele.com")
        = normalize_supplier_name "tele.com") := by
  set_option maxHeartbeats 4000000 in decide

set_option maxHeartbeats 4000000 in
/-- C6 (amended): `normalize_supplier_name` is idempotent on every input whose
normalized output contains no occurrence of one of the six replacement source
substrings; on such outputs every stage of a second application (lower-case,
strip, the six replacements, punctuation strip, whitespace collapse, strip)
is the identity. -/
theorem C6_normalize_idem (x : String)
    (h : ∀ p ∈ replacementList, hasSub p.1 (normalize_supplier_name x).data = false) :
    normalize_supplier_name (normalize_supplier_name x) = normalize_supplier_name x := by
  have hlower : pyLower (normalize_supplier_name x).data
      = (normalize_supplier_name x).data :=
    map_eq_self_of_fix _ _ (normalize_chars_lower x)
  have hstrip1 : pyStrip (normalize_supplier_name x).data
      = (normalize_supplier_name x).data := by
    rw [normalize_supplier_name_data]
    exact pyStrip_idem _
  have hrepl : applyReplacements (normalize_supplier_name x).data
      = (normalize_supplier_name x).data :=
    applyReplacements_of_not_hasSub _ h
  have hpunct : stripPunct (normalize_supplier_name x).data
      = (normalize_supplier_name x).data := by
    rw [stripPunct]
    exact List.filter_eq_self.mpr (normalize_chars_punct x)
  have hflat : WsFlat (normalize_supplier_name x).data := by
    rw [normalize_supplier_name_data]
    exact WsFlat_pyStrip _ ⟨collapseWsAux_chain false _,
      fun c hc hw => collapseWsAux_space false _ c hc hw⟩
  have hcoll : collapseWs (normalize_supplier_name x).data
      = (normalize_supplier_name x).data :=
    collapseWs_eq_self _ hflat
  rw [normalize_supplier_name_eq (normalize_supplier_name x),
    hlower, hstrip1, hrepl, hpunct, hcoll, hstrip1]

/-- C6 witness: on `"ABC Communications & Co."` the normalized output
`"abc comm and co"` contains no replacement key, and a second normalization
leaves it unchanged. -/
theorem C6_normalize_idem_witness :
    (∀ p ∈ replacementList,
      hasSub p.1 (normalize_supplier_name "ABC Communications & Co.").data = false) ∧
    normalize_supplier_name (normalize_supplier_name "ABC Communications & Co.")
      = normalize_supplier_name "ABC Communications & Co." :=
  ⟨by decide, C6_normalize_idem "ABC Communications & Co." (by decide)⟩

end Sale
